import Mathlib

/-!
Shallow embedding of the mindjuice brainfuck interpreter (src/src/lib.rs).

The parser `parse_instructions` is a single left-to-right scan keeping a
stack of pending open-bracket positions; the executor `execute_brainfuck`
is a fuel-bounded fetch-decode-execute loop over a 32768-cell tape.

Modelling conventions:
  - machine integers are Nat with explicit reductions: usize arithmetic
    wraps modulo 2^64 (release-mode wrapping semantics of the Rust code),
    u8 cells wrap modulo 256;
  - the output sink is a function from write-call index to Bool (does the
    n-th write call succeed); bytes written are accumulated in a list;
  - the input source is a function from read-call index to a ReadResult
    (an error, or Ok(n) together with the byte placed in the buffer);
  - the busy-wait read loop of the Input instruction is given explicit
    fuel; exhausting that fuel yields `none` (the real loop would still
    be spinning), every completed execution yields `some`;
  - the `steps` field of the state is a ghost counter of instruction
    dispatches, used to state budget claims; no code path reads it.
-/

namespace Mindjuice

/-- ParseError of the source: the two bracket-balance failures. -/
inductive Error where
  | UnbalancedRightBracket
  | UnbalancedLeftBracket
deriving DecidableEq

inductive ExecutionTerminationCondition where
  | MaximumIterationsReached
  | AllInstructionsFinished
deriving DecidableEq

inductive Instruction where
  | MoveRight
  | MoveLeft
  | Increment
  | Decrement
  | Output
  | Input
  | JumpToLeft (target : Nat)
  | JumpToRight (target : Nat)
deriving DecidableEq

/-- Action the parser loop takes for one character: the six plain
instructions are emitted directly, brackets run the stack logic, and
every other character is skipped. -/
inductive CharStep where
  | emit (ins : Instruction)
  | openBracket
  | closeBracket
  | skip
deriving DecidableEq

/-- The character match of the parser loop in the source. -/
def charStep (c : Char) : CharStep :=
  if c = '>' then .emit .MoveRight
  else if c = '<' then .emit .MoveLeft
  else if c = '+' then .emit .Increment
  else if c = '-' then .emit .Decrement
  else if c = '.' then .emit .Output
  else if c = ',' then .emit .Input
  else if c = '[' then .openBracket
  else if c = ']' then .closeBracket
  else .skip

/-- The parser loop. `S` is the stack of waiting opening-jump positions
(head is the top), `v` the instruction list built so far; brackets do the
push / pop-and-backpatch of the source, the final check reports an
UnbalancedLeftBracket when the stack is nonempty after the scan. -/
def parseGo : List Char → List Nat → List Instruction → Except Error (List Instruction)
  | [], S, v => if S.isEmpty then .ok v else .error .UnbalancedLeftBracket
  | c :: cs, S, v =>
    match charStep c with
    | .emit ins => parseGo cs S (v ++ [ins])
    | .openBracket => parseGo cs (v.length :: S) (v ++ [.JumpToLeft 0])
    | .closeBracket =>
      match S with
      | [] => .error .UnbalancedRightBracket
      | p :: S2 => parseGo cs S2 ((v.set p (.JumpToLeft v.length)) ++ [.JumpToRight p])
    | .skip => parseGo cs S v

def parse_instructions (input : List Char) : Except Error (List Instruction) :=
  parseGo input [] []

/-- Occurrences of a character in a list. -/
def countCh (c : Char) : List Char → Nat
  | [] => 0
  | d :: l => (if d = c then 1 else 0) + countCh c l

def MEMORY_SIZE : Nat := 32768

/-- Modulus of usize arithmetic on a 64-bit target. -/
def USIZE_MOD : Nat := 18446744073709551616

/-- Bytes produced by formatting the char with code point b (b < 256),
which is what the Output arm writes to the sink. -/
def utf8OfByte (b : Nat) : List Nat :=
  if b < 128 then [b] else [192 + b / 64, 128 + b % 64]

/-- Result of one read call on the input source: a hard failure, or
Ok(n) with the byte placed into the one-byte buffer. -/
inductive ReadResult where
  | err
  | ok (n : Nat) (b : Nat)
deriving DecidableEq

/-- The busy-wait loop of the Input arm: call read at index i; a hard
failure propagates at once; a read of at least one byte stops the loop
with that byte; a zero-byte read retries. `none` means the given fuel
ran out while the loop was still spinning. -/
def readLoop (inp : Nat → ReadResult) : Nat → Nat → Option (Except Unit (Nat × Nat))
  | 0, _ => none
  | fuel + 1, i =>
    match inp i with
    | .err => some (.error ())
    | .ok n b => if 1 ≤ n then some (.ok (b, i + 1)) else readLoop inp fuel (i + 1)

structure ExecState where
  memory : Nat → Nat
  memory_position : Nat
  next_instruction : Nat
  output : List Nat
  writes : Nat
  reads : Nat
  steps : Nat

def initState : ExecState :=
  { memory := fun _ => 0, memory_position := 0, next_instruction := 0,
    output := [], writes := 0, reads := 0, steps := 0 }

def updMem (m : Nat → Nat) (p v : Nat) : Nat → Nat :=
  fun i => if i = p then v else m i

/-- One dispatch of the executor's match statement. The returned state
carries the program counter already advanced (incremented, or set to the
jump target when the jump is taken — the source's `continue`). `none`
means the Input busy-wait did not finish within its fuel. -/
def execStep (w : Nat → Bool) (inp : Nat → ReadResult) (rf : Nat) :
    Instruction → ExecState → Option (Except Unit ExecState)
  | .MoveRight, s =>
    some (.ok { s with
      memory_position := (s.memory_position + 1) % USIZE_MOD % MEMORY_SIZE,
      next_instruction := s.next_instruction + 1 })
  | .MoveLeft, s =>
    some (.ok { s with
      memory_position := (s.memory_position + (USIZE_MOD - 1)) % USIZE_MOD % MEMORY_SIZE,
      next_instruction := s.next_instruction + 1 })
  | .Increment, s =>
    some (.ok { s with
      memory := updMem s.memory s.memory_position ((s.memory s.memory_position + 1) % 256),
      next_instruction := s.next_instruction + 1 })
  | .Decrement, s =>
    some (.ok { s with
      memory := updMem s.memory s.memory_position ((s.memory s.memory_position + 255) % 256),
      next_instruction := s.next_instruction + 1 })
  | .Output, s =>
    if w s.writes then
      some (.ok { s with
        output := s.output ++ utf8OfByte (s.memory s.memory_position),
        writes := s.writes + 1,
        next_instruction := s.next_instruction + 1 })
    else some (.error ())
  | .Input, s =>
    match readLoop inp rf s.reads with
    | none => none
    | some (.error _) => some (.error ())
    | some (.ok (b, i2)) =>
      some (.ok { s with
        memory := updMem s.memory s.memory_position b,
        reads := i2,
        next_instruction := s.next_instruction + 1 })
  | .JumpToLeft t, s =>
    if s.memory s.memory_position = 0 then some (.ok { s with next_instruction := t })
    else some (.ok { s with next_instruction := s.next_instruction + 1 })
  | .JumpToRight t, s =>
    if s.memory s.memory_position ≠ 0 then some (.ok { s with next_instruction := t })
    else some (.ok { s with next_instruction := s.next_instruction + 1 })

/-- The bounded for loop of the executor: each round first checks for
program-counter overrun (AllInstructionsFinished), otherwise dispatches
the current instruction; running out of rounds is
MaximumIterationsReached. -/
def execGo (instrs : List Instruction) (w : Nat → Bool) (inp : Nat → ReadResult) (rf : Nat) :
    Nat → ExecState → Option (Except Unit (ExecutionTerminationCondition × ExecState))
  | 0, s => some (.ok (.MaximumIterationsReached, s))
  | fuel + 1, s =>
    if h : s.next_instruction < instrs.length then
      match execStep w inp rf (instrs.get ⟨s.next_instruction, h⟩) { s with steps := s.steps + 1 } with
      | none => none
      | some (.error e) => some (.error e)
      | some (.ok s2) => execGo instrs w inp rf fuel s2
    else
      some (.ok (.AllInstructionsFinished, s))

def execute_brainfuck (instrs : List Instruction) (w : Nat → Bool) (inp : Nat → ReadResult)
    (rf : Nat) (maximum_iterations : Nat) :
    Option (Except Unit (ExecutionTerminationCondition × ExecState)) :=
  execGo instrs w inp rf maximum_iterations initState

/-- Memory pointer of a successful step result. -/
def stepPos : Option (Except Unit ExecState) → Option Nat
  | some (.ok s) => some s.memory_position
  | _ => none

/-- Program counter of a successful step result. -/
def stepPC : Option (Except Unit ExecState) → Option Nat
  | some (.ok s) => some s.next_instruction
  | _ => none

/-- Tape cell p of a successful step result. -/
def stepCell (p : Nat) : Option (Except Unit ExecState) → Option Nat
  | some (.ok s) => some (s.memory p)
  | _ => none

/-- Accumulated output of a successful step result. -/
def stepOut : Option (Except Unit ExecState) → Option (List Nat)
  | some (.ok s) => some s.output
  | _ => none

/-! Unfolding equations of the parser loop, one per action kind. -/

lemma parseGo_cons_emit {c : Char} {ins : Instruction} (h : charStep c = .emit ins)
    (cs : List Char) (S : List Nat) (v : List Instruction) :
    parseGo (c :: cs) S v = parseGo cs S (v ++ [ins]) := by
  simp [parseGo, h]

lemma parseGo_cons_open {c : Char} (h : charStep c = .openBracket)
    (cs : List Char) (S : List Nat) (v : List Instruction) :
    parseGo (c :: cs) S v = parseGo cs (v.length :: S) (v ++ [.JumpToLeft 0]) := by
  simp [parseGo, h]

lemma parseGo_cons_close_nil {c : Char} (h : charStep c = .closeBracket)
    (cs : List Char) (v : List Instruction) :
    parseGo (c :: cs) [] v = .error .UnbalancedRightBracket := by
  simp [parseGo, h]

lemma parseGo_cons_close_cons {c : Char} (h : charStep c = .closeBracket)
    (cs : List Char) (p : Nat) (S2 : List Nat) (v : List Instruction) :
    parseGo (c :: cs) (p :: S2) v =
      parseGo cs S2 ((v.set p (.JumpToLeft v.length)) ++ [.JumpToRight p]) := by
  simp [parseGo, h]

lemma parseGo_cons_skip {c : Char} (h : charStep c = .skip)
    (cs : List Char) (S : List Nat) (v : List Instruction) :
    parseGo (c :: cs) S v = parseGo cs S v := by
  simp [parseGo, h]

/-- An emitted instruction is one of the six payload-free ones, never a jump. -/
lemma charStep_emit_not_jump {c : Char} {ins : Instruction} (h : charStep c = .emit ins) :
    (∀ t, ins ≠ .JumpToLeft t) ∧ (∀ t, ins ≠ .JumpToRight t) := by
  unfold charStep at h
  repeat' split at h
  all_goals cases h
  all_goals refine ⟨fun t h3 => ?_, fun t h3 => ?_⟩ <;> cases h3

/-- Indexing into a list extended by one element on the right. -/
lemma getElem?_append_single {v : List α} {a x : α} {i : Nat}
    (h : (v ++ [a])[i]? = some x) :
    (i < v.length ∧ v[i]? = some x) ∨ (i = v.length ∧ x = a) := by
  have hb : i < v.length + 1 := by
    have h2 := (List.getElem?_eq_some_iff.mp h).1
    simpa using h2
  rcases Nat.lt_or_ge i v.length with hlt | hge
  · exact Or.inl ⟨hlt, by rwa [List.getElem?_append_left hlt] at h⟩
  · have he : i = v.length := Nat.le_antisymm (Nat.lt_succ_iff.mp hb) hge
    subst he
    rw [List.getElem?_concat_length] at h
    exact Or.inr ⟨rfl, (Option.some_inj.mp h).symm⟩

/-- Loop invariant of the parser scan. `S` is the stack of pending
open-bracket positions (top first), `v` the instructions built so far:
stack entries are in bounds, strictly decreasing from the top, and hold
the placeholder; jump instructions at all other positions already refer
to each other mutually, and no finalized target is a pending position. -/
structure ParseInv (S : List Nat) (v : List Instruction) : Prop where
  bounds : ∀ p ∈ S, p < v.length
  sorted : S.Pairwise (fun a b => b < a)
  placeholder : ∀ p ∈ S, v[p]? = some (Instruction.JumpToLeft 0)
  leftOk : ∀ i t, i ∉ S → v[i]? = some (Instruction.JumpToLeft t) →
    v[t]? = some (Instruction.JumpToRight i)
  rightOk : ∀ j t, v[j]? = some (Instruction.JumpToRight t) →
    v[t]? = some (Instruction.JumpToLeft j) ∧ t ∉ S

lemma parseInv_nil : ParseInv [] [] := by
  constructor <;> simp

/-- Appending a non-jump instruction preserves the invariant. -/
lemma ParseInv.emit {S : List Nat} {v : List Instruction} (ins : Instruction)
    (hL : ∀ t, ins ≠ .JumpToLeft t) (hR : ∀ t, ins ≠ .JumpToRight t)
    (H : ParseInv S v) : ParseInv S (v ++ [ins]) := by
  constructor
  · intro p hp
    have := H.bounds p hp
    simp only [List.length_append, List.length_cons, List.length_nil]
    omega
  · exact H.sorted
  · intro p hp
    have hlt := H.bounds p hp
    rw [List.getElem?_append_left hlt]
    exact H.placeholder p hp
  · intro i t hiS hget
    rcases getElem?_append_single hget with ⟨hlt, hv⟩ | ⟨rfl, hx⟩
    · have h2 := H.leftOk i t hiS hv
      have ht := (List.getElem?_eq_some_iff.mp h2).1
      rw [List.getElem?_append_left ht]
      exact h2
    · exact absurd hx.symm (hL t)
  · intro j t hget
    rcases getElem?_append_single hget with ⟨hlt, hv⟩ | ⟨rfl, hx⟩
    · have h2 := H.rightOk j t hv
      have ht := (List.getElem?_eq_some_iff.mp h2.1).1
      exact ⟨by rw [List.getElem?_append_left ht]; exact h2.1, h2.2⟩
    · exact absurd hx.symm (hR t)

/-- The open-bracket action preserves the invariant. -/
lemma ParseInv.openB {S : List Nat} {v : List Instruction}
    (H : ParseInv S v) : ParseInv (v.length :: S) (v ++ [Instruction.JumpToLeft 0]) := by
  constructor
  · intro p hp
    rcases List.mem_cons.mp hp with rfl | hp2
    · simp
    · have := H.bounds p hp2
      simp only [List.length_append, List.length_cons, List.length_nil]
      omega
  · exact List.pairwise_cons.mpr ⟨fun q hq => H.bounds q hq, H.sorted⟩
  · intro p hp
    rcases List.mem_cons.mp hp with rfl | hp2
    · exact List.getElem?_concat_length v _
    · have hlt := H.bounds p hp2
      rw [List.getElem?_append_left hlt]
      exact H.placeholder p hp2
  · intro i t hiS hget
    rcases getElem?_append_single hget with ⟨hlt, hv⟩ | ⟨rfl, hx⟩
    · have hiS2 : i ∉ S := fun h2 => hiS (List.mem_cons_of_mem _ h2)
      have h2 := H.leftOk i t hiS2 hv
      have ht := (List.getElem?_eq_some_iff.mp h2).1
      rw [List.getElem?_append_left ht]
      exact h2
    · exact absurd (List.mem_cons_self _ _) hiS
  · intro j t hget
    rcases getElem?_append_single hget with ⟨hlt, hv⟩ | ⟨rfl, hx⟩
    · have h2 := H.rightOk j t hv
      have ht := (List.getElem?_eq_some_iff.mp h2.1).1
      refine ⟨by rw [List.getElem?_append_left ht]; exact h2.1, ?_⟩
      intro hmem
      rcases List.mem_cons.mp hmem with he | hmem2
      · exact absurd he (Nat.ne_of_lt ht)
      · exact h2.2 hmem2
    · cases hx

/-- The close-bracket action (backpatch the popped placeholder, append
the matching JumpToRight) preserves the invariant. -/
lemma ParseInv.closeB {S : List Nat} {v : List Instruction} {p : Nat}
    (H : ParseInv (p :: S) v) :
    ParseInv S ((v.set p (Instruction.JumpToLeft v.length)) ++ [Instruction.JumpToRight p]) := by
  have hp : p < v.length := H.bounds p (List.mem_cons_self _ _)
  have hpS : ∀ q ∈ S, q < p := (List.pairwise_cons.mp H.sorted).1
  have hlenset : (v.set p (Instruction.JumpToLeft v.length)).length = v.length :=
    List.length_set v p _
  have wP : ((v.set p (Instruction.JumpToLeft v.length)) ++ [Instruction.JumpToRight p])[p]? =
      some (Instruction.JumpToLeft v.length) := by
    rw [List.getElem?_append_left (by omega), List.getElem?_set_self hp]
  have wN : ((v.set p (Instruction.JumpToLeft v.length)) ++ [Instruction.JumpToRight p])[v.length]? =
      some (Instruction.JumpToRight p) := by
    have h2 := List.getElem?_concat_length (v.set p (Instruction.JumpToLeft v.length))
      (Instruction.JumpToRight p)
    rwa [hlenset] at h2
  have wAt : ∀ i, i ≠ p → i < v.length →
      ((v.set p (Instruction.JumpToLeft v.length)) ++ [Instruction.JumpToRight p])[i]? = v[i]? := by
    intro i hne hlt
    rw [List.getElem?_append_left (by omega), List.getElem?_set_ne (fun h2 => hne h2.symm)]
  constructor
  · intro q hq
    have h1 := hpS q hq
    simp only [List.length_append, List.length_cons, List.length_nil]
    omega
  · exact (List.pairwise_cons.mp H.sorted).2
  · intro q hq
    have h1 := hpS q hq
    have h2 : q < v.length := by omega
    rw [wAt q (by omega) h2]
    exact H.placeholder q (List.mem_cons_of_mem _ hq)
  · intro i t hiS hget
    rcases getElem?_append_single hget with ⟨hlt, hv⟩ | ⟨rfl, hx⟩
    · rw [hlenset] at hlt
      by_cases hip : i = p
      · subst hip
        rw [List.getElem?_set_self hp] at hv
        have ht : t = v.length := by
          injection Option.some_inj.mp hv with h2
          exact h2.symm
        subst ht
        exact wN
      · rw [List.getElem?_set_ne (fun h2 => hip h2.symm)] at hv
        have hiS2 : i ∉ p :: S := by
          intro h2
          rcases List.mem_cons.mp h2 with he | hm
          · exact hip he
          · exact hiS hm
        have h2 := H.leftOk i t hiS2 hv
        have ht := (List.getElem?_eq_some_iff.mp h2).1
        have htp : t ≠ p := by
          intro he
          subst he
          have h3 := H.placeholder t (List.mem_cons_self _ _)
          rw [h2] at h3
          cases Option.some_inj.mp h3
        rw [wAt t htp ht]
        exact h2
    · cases hx
  · intro j t hget
    rcases getElem?_append_single hget with ⟨hlt, hv⟩ | ⟨rfl, hx⟩
    · rw [hlenset] at hlt
      by_cases hjp : j = p
      · subst hjp
        rw [List.getElem?_set_self hp] at hv
        cases Option.some_inj.mp hv
      · rw [List.getElem?_set_ne (fun h2 => hjp h2.symm)] at hv
        have h2 := H.rightOk j t hv
        have ht := (List.getElem?_eq_some_iff.mp h2.1).1
        have htp : t ≠ p := fun he => h2.2 (he ▸ List.mem_cons_self _ _)
        refine ⟨by rw [wAt t htp ht]; exact h2.1, ?_⟩
        exact fun hm => h2.2 (List.mem_cons_of_mem _ hm)
    · have htp : t = p := by
        injection hx with h2
      subst htp
      rw [hlenset]
      exact ⟨wP, fun hm => by have h3 := hpS t hm; omega⟩

/-- A successful scan from an invariant state yields mutually referring
jump pairs. -/
theorem parseGo_pairs : ∀ (cs : List Char) (S : List Nat) (v out : List Instruction),
    ParseInv S v → parseGo cs S v = .ok out →
    (∀ i t, out[i]? = some (Instruction.JumpToLeft t) →
      out[t]? = some (Instruction.JumpToRight i)) ∧
    (∀ j t, out[j]? = some (Instruction.JumpToRight t) →
      out[t]? = some (Instruction.JumpToLeft j))
  | [], S, v, out, H, hok => by
    have hnil : parseGo [] S v =
        if S.isEmpty then .ok v else .error .UnbalancedLeftBracket := rfl
    rw [hnil] at hok
    split at hok
    case isTrue hS =>
      cases hok
      have hSnil : S = [] := List.isEmpty_iff.mp hS
      subst hSnil
      exact ⟨fun i t hit => H.leftOk i t (by simp) hit,
        fun j t hjt => (H.rightOk j t hjt).1⟩
    case isFalse => cases hok
  | c :: cs, S, v, out, H, hok => by
    cases hcs : charStep c with
    | emit ins =>
      rw [parseGo_cons_emit hcs] at hok
      have hnj := charStep_emit_not_jump hcs
      exact parseGo_pairs cs S _ out (H.emit ins hnj.1 hnj.2) hok
    | openBracket =>
      rw [parseGo_cons_open hcs] at hok
      exact parseGo_pairs cs _ _ out H.openB hok
    | closeBracket =>
      cases S with
      | nil =>
        rw [parseGo_cons_close_nil hcs] at hok
        cases hok
      | cons p S2 =>
        rw [parseGo_cons_close_cons hcs] at hok
        exact parseGo_pairs cs S2 _ out H.closeB hok
    | skip =>
      rw [parseGo_cons_skip hcs] at hok
      exact parseGo_pairs cs S v out H hok

/-- C1: on every character sequence on which parse_instructions succeeds,
a JumpToLeft at position i has as target the position of its matching
JumpToRight, and that JumpToRight has target i: the two directions below
state that each jump's target holds the opposite jump pointing back. -/
theorem claim1_jump_pairs_mutual (input : List Char) (out : List Instruction)
    (h : parse_instructions input = .ok out) :
    (∀ i t, out[i]? = some (Instruction.JumpToLeft t) →
      out[t]? = some (Instruction.JumpToRight i)) ∧
    (∀ j t, out[j]? = some (Instruction.JumpToRight t) →
      out[t]? = some (Instruction.JumpToLeft j)) :=
  parseGo_pairs input [] [] out parseInv_nil h

/-- C1 witness: the program "[]" parses, and both directions of the
mutual-reference property evaluate at its concrete jump pair. -/
theorem claim1_jump_pairs_mutual_witness :
    parse_instructions ['[', ']'] =
      .ok [Instruction.JumpToLeft 1, Instruction.JumpToRight 0] ∧
    [Instruction.JumpToLeft 1, Instruction.JumpToRight 0][1]? =
      some (Instruction.JumpToRight 0) ∧
    [Instruction.JumpToLeft 1, Instruction.JumpToRight 0][0]? =
      some (Instruction.JumpToLeft 1) :=
  ⟨rfl,
    (claim1_jump_pairs_mutual ['[', ']'] _ rfl).1 0 1 rfl,
    (claim1_jump_pairs_mutual ['[', ']'] _ rfl).2 1 0 rfl⟩

/-! Character-class facts about the parser's match. -/

lemma charStep_open_char {c : Char} (h : charStep c = CharStep.openBracket) : c = '[' := by
  unfold charStep at h
  repeat' split at h
  all_goals first | assumption | cases h

lemma charStep_close_char {c : Char} (h : charStep c = CharStep.closeBracket) : c = ']' := by
  unfold charStep at h
  repeat' split at h
  all_goals first | assumption | cases h

lemma charStep_emit_char {c : Char} {ins : Instruction} (h : charStep c = .emit ins) :
    c ≠ '[' ∧ c ≠ ']' := by
  unfold charStep at h
  repeat' split at h
  all_goals cases h
  all_goals subst_vars
  all_goals exact ⟨by decide, by decide⟩

lemma charStep_skip_char {c : Char} (h : charStep c = CharStep.skip) :
    c ≠ '[' ∧ c ≠ ']' := by
  unfold charStep at h
  repeat' split at h
  all_goals first | exact ⟨by assumption, by assumption⟩ | cases h

lemma countCh_cons (c d : Char) (l : List Char) :
    countCh c (d :: l) = (if d = c then 1 else 0) + countCh c l := rfl

/-- Scanning a chunk with strictly more closing than opening brackets
(counted against the pending stack) fails at once with
UnbalancedRightBracket, whatever follows the chunk. -/
theorem parseGo_unbalanced_right :
    ∀ (p cs : List Char) (S : List Nat) (v : List Instruction),
      countCh '[' p + S.length < countCh ']' p →
      parseGo (p ++ cs) S v = .error .UnbalancedRightBracket
  | [], cs, S, v, h => by simp [countCh] at h
  | c :: p2, cs, S, v, h => by
    rw [List.cons_append]
    cases hcs : charStep c with
    | emit ins =>
      have hc := charStep_emit_char hcs
      rw [parseGo_cons_emit hcs]
      refine parseGo_unbalanced_right p2 cs S _ ?_
      rw [countCh_cons, countCh_cons, if_neg hc.1, if_neg hc.2] at h
      omega
    | openBracket =>
      have hc := charStep_open_char hcs
      subst hc
      rw [parseGo_cons_open hcs]
      refine parseGo_unbalanced_right p2 cs _ _ ?_
      rw [countCh_cons, countCh_cons, if_pos rfl, if_neg (by decide)] at h
      simp only [List.length_cons]
      omega
    | closeBracket =>
      have hc := charStep_close_char hcs
      subst hc
      cases S with
      | nil => exact parseGo_cons_close_nil hcs _ _
      | cons q S2 =>
        rw [parseGo_cons_close_cons hcs]
        refine parseGo_unbalanced_right p2 cs S2 _ ?_
        rw [countCh_cons, countCh_cons, if_pos rfl, if_neg (by decide)] at h
        simp only [List.length_cons] at h
        omega
    | skip =>
      have hc := charStep_skip_char hcs
      rw [parseGo_cons_skip hcs]
      refine parseGo_unbalanced_right p2 cs S v ?_
      rw [countCh_cons, countCh_cons, if_neg hc.1, if_neg hc.2] at h
      omega

/-- C7: an input that extends a chunk containing strictly more right
than left brackets fails with UnbalancedRightBracket; the suffix after
that chunk is arbitrary, so the scan's verdict is already fixed at the
first offending right bracket of the single left-to-right pass. -/
theorem claim7_unbalanced_right_bracket (p cs : List Char)
    (h : countCh '[' p < countCh ']' p) :
    parse_instructions (p ++ cs) = .error .UnbalancedRightBracket := by
  refine parseGo_unbalanced_right p cs [] [] ?_
  simpa using h

/-- C7 witness: a lone right bracket followed by any suffix fails with
UnbalancedRightBracket. -/
theorem claim7_unbalanced_right_bracket_witness :
    parse_instructions ([']'] ++ ['+', '.']) = .error .UnbalancedRightBracket :=
  claim7_unbalanced_right_bracket [']'] ['+', '.'] (by decide)

/-- Scanning an input in which no prefix closes more brackets than were
opened (relative to the pending stack), yet which leaves the stack
nonempty at the end, fails with UnbalancedLeftBracket after the scan. -/
theorem parseGo_unbalanced_left :
    ∀ (inp : List Char) (S : List Nat) (v : List Instruction),
      (∀ k, countCh ']' (inp.take k) ≤ countCh '[' (inp.take k) + S.length) →
      countCh ']' inp < countCh '[' inp + S.length →
      parseGo inp S v = .error .UnbalancedLeftBracket
  | [], S, v, h1, h2 => by
    have hnil : parseGo [] S v =
        if S.isEmpty then .ok v else .error .UnbalancedLeftBracket := rfl
    rw [hnil]
    cases S with
    | nil => simp [countCh] at h2
    | cons q S2 => simp
  | c :: cs, S, v, h1, h2 => by
    cases hcs : charStep c with
    | emit ins =>
      have hc := charStep_emit_char hcs
      rw [parseGo_cons_emit hcs]
      refine parseGo_unbalanced_left cs S _ ?_ ?_
      · intro k
        have h3 := h1 (k + 1)
        rw [List.take_succ_cons, countCh_cons, countCh_cons, if_neg hc.1, if_neg hc.2] at h3
        omega
      · rw [countCh_cons, countCh_cons, if_neg hc.1, if_neg hc.2] at h2
        omega
    | openBracket =>
      have hc := charStep_open_char hcs
      subst hc
      rw [parseGo_cons_open hcs]
      refine parseGo_unbalanced_left cs _ _ ?_ ?_
      · intro k
        have h3 := h1 (k + 1)
        rw [List.take_succ_cons, countCh_cons, countCh_cons, if_pos rfl,
          if_neg (by decide)] at h3
        simp only [List.length_cons]
        omega
      · rw [countCh_cons, countCh_cons, if_pos rfl, if_neg (by decide)] at h2
        simp only [List.length_cons]
        omega
    | closeBracket =>
      have hc := charStep_close_char hcs
      subst hc
      have hS : 1 ≤ S.length := by
        have h3 := h1 1
        rw [List.take_succ_cons, List.take_zero, countCh_cons, countCh_cons,
          if_pos rfl, if_neg (by decide)] at h3
        simp [countCh] at h3
        omega
      cases S with
      | nil => simp at hS
      | cons q S2 =>
        rw [parseGo_cons_close_cons hcs]
        refine parseGo_unbalanced_left cs S2 _ ?_ ?_
        · intro k
          have h3 := h1 (k + 1)
          rw [List.take_succ_cons, countCh_cons, countCh_cons, if_pos rfl,
            if_neg (by decide)] at h3
          simp only [List.length_cons] at h3
          omega
        · rw [countCh_cons, countCh_cons, if_pos rfl, if_neg (by decide)] at h2
          simp only [List.length_cons] at h2
          omega
    | skip =>
      have hc := charStep_skip_char hcs
      rw [parseGo_cons_skip hcs]
      refine parseGo_unbalanced_left cs S v ?_ ?_
      · intro k
        have h3 := h1 (k + 1)
        rw [List.take_succ_cons, countCh_cons, countCh_cons, if_neg hc.1, if_neg hc.2] at h3
        omega
      · rw [countCh_cons, countCh_cons, if_neg hc.1, if_neg hc.2] at h2
        omega

/-- C8: on an input none of whose prefixes has an excess of right
brackets (so no UnbalancedRightBracket fires during the scan) but whose
full scan has strictly more left than right brackets, the parser fails
with UnbalancedLeftBracket; the hypothesis ranges over every prefix, so
the verdict needs the full scan. -/
theorem claim8_unbalanced_left_bracket (input : List Char)
    (h1 : ∀ k ∈ List.range (input.length + 1),
      countCh ']' (input.take k) ≤ countCh '[' (input.take k))
    (h2 : countCh ']' input < countCh '[' input) :
    parse_instructions input = .error .UnbalancedLeftBracket := by
  refine parseGo_unbalanced_left input [] [] ?_ ?_
  · intro k
    by_cases hk : k ≤ input.length
    · have h3 := h1 k (List.mem_range.mpr (by omega))
      simpa using h3
    · have htake : input.take k = input := List.take_of_length_le (by omega)
      rw [htake]
      simpa using Nat.le_of_lt h2
  · simpa using h2

/-- C8 witness: a lone left bracket fails with UnbalancedLeftBracket. -/
theorem claim8_unbalanced_left_bracket_witness :
    parse_instructions ['[', '+'] = .error .UnbalancedLeftBracket :=
  claim8_unbalanced_left_bracket ['[', '+'] (by decide) (by decide)

/-! Concrete sinks, sources and states used by the witnesses. -/

def wTrue : Nat → Bool := fun _ => true

def inpNone : Nat → ReadResult := fun _ => .err

def inpSeq : Nat → ReadResult :=
  fun j => if j = 0 then .ok 0 0 else if j = 1 then .ok 1 65 else .err

def st128 : ExecState := { initState with memory := fun _ => 128 }

def st255 : ExecState := { initState with memory := fun _ => 255 }

def stLast : ExecState := { initState with memory_position := MEMORY_SIZE - 1 }

/-! Arithmetic facts about the wrapping pointer moves. -/

lemma usize_dec_mod (p : Nat) (h : p < MEMORY_SIZE) :
    (p + (USIZE_MOD - 1)) % USIZE_MOD % MEMORY_SIZE = (p + (MEMORY_SIZE - 1)) % MEMORY_SIZE := by
  cases p with
  | zero => decide
  | succ q =>
    have hm : (1 : Nat) ≤ USIZE_MOD := by decide
    have hms : MEMORY_SIZE < USIZE_MOD := by decide
    have h1 : q + 1 + (USIZE_MOD - 1) = q + USIZE_MOD := by omega
    have h2 : q % USIZE_MOD = q := Nat.mod_eq_of_lt (by omega)
    have h3 : q + 1 + (MEMORY_SIZE - 1) = q + MEMORY_SIZE := by
      have hm2 : (1 : Nat) ≤ MEMORY_SIZE := by decide
      omega
    rw [h1, Nat.add_mod_right, h2, h3, Nat.add_mod_right]

lemma usize_inc_mod (p : Nat) (h : p < MEMORY_SIZE) :
    (p + 1) % USIZE_MOD % MEMORY_SIZE = (p + 1) % MEMORY_SIZE := by
  have hms : MEMORY_SIZE < USIZE_MOD := by decide
  have h2 : (p + 1) % USIZE_MOD = p + 1 := Nat.mod_eq_of_lt (by omega)
  rw [h2]

/-- C3: with the memory pointer inside the tape, MoveLeft and MoveRight
move it by one with wraparound modulo the tape length: in particular
position 0 moves left to MEMORY_SIZE - 1 = 32767 and the last cell moves
right to 0, by instantiating the two modular formulas. -/
theorem claim3_pointer_wraparound (w : Nat → Bool) (inp : Nat → ReadResult) (rf : Nat)
    (s : ExecState) (h : s.memory_position < MEMORY_SIZE) :
    stepPos (execStep w inp rf .MoveLeft s) =
      some ((s.memory_position + (MEMORY_SIZE - 1)) % MEMORY_SIZE) ∧
    stepPos (execStep w inp rf .MoveRight s) =
      some ((s.memory_position + 1) % MEMORY_SIZE) := by
  constructor
  · simp only [execStep, stepPos]
    rw [usize_dec_mod s.memory_position h]
  · simp only [execStep, stepPos]
    rw [usize_inc_mod s.memory_position h]

/-- C3 witness: moving left from position 0 lands on cell 32767, moving
right from cell 32767 lands on position 0. -/
theorem claim3_pointer_wraparound_witness :
    stepPos (execStep wTrue inpNone 0 .MoveLeft initState) = some 32767 ∧
    stepPos (execStep wTrue inpNone 0 .MoveRight stLast) = some 0 := by
  have h1 := (claim3_pointer_wraparound wTrue inpNone 0 initState (by decide)).1
  have h2 := (claim3_pointer_wraparound wTrue inpNone 0 stLast (by decide)).2
  constructor
  · rw [h1]; decide
  · rw [h2]; decide

/-- C4: with the current cell holding a byte value, Increment and
Decrement adjust it by one modulo 256, without any error result: a cell
holding 255 increments to 0 and a cell holding 0 decrements to 255 by
instantiating the two modular formulas. -/
theorem claim4_cell_wraparound (w : Nat → Bool) (inp : Nat → ReadResult) (rf : Nat)
    (s : ExecState) (h : s.memory s.memory_position < 256) :
    stepCell s.memory_position (execStep w inp rf .Increment s) =
      some ((s.memory s.memory_position + 1) % 256) ∧
    stepCell s.memory_position (execStep w inp rf .Decrement s) =
      some ((s.memory s.memory_position + 255) % 256) := by
  constructor <;> simp [execStep, stepCell, updMem]

/-- C4 witness: incrementing a cell holding 255 yields 0, decrementing a
cell holding 0 yields 255, both as successful steps. -/
theorem claim4_cell_wraparound_witness :
    stepCell st255.memory_position (execStep wTrue inpNone 0 .Increment st255) = some 0 ∧
    stepCell initState.memory_position (execStep wTrue inpNone 0 .Decrement initState) =
      some 255 := by
  have h1 := (claim4_cell_wraparound wTrue inpNone 0 st255 (by decide)).1
  have h2 := (claim4_cell_wraparound wTrue inpNone 0 initState (by decide)).2
  constructor
  · rw [h1]; decide
  · rw [h2]; decide

/-- C2 counterexample: with a cell holding 128, the Output dispatch
appends the two UTF-8 bytes 194, 128 to the sink, not the single byte
128 the claim asserts. -/
theorem claim2_output_single_byte_counterexample :
    stepOut (execStep wTrue inpNone 0 .Output st128) = some [194, 128] ∧
    stepOut (execStep wTrue inpNone 0 .Output st128) ≠ some [128] := by
  constructor
  · rfl
  · intro h
    have h2 : ([194, 128] : List Nat) = [128] := by
      have h3 : stepOut (execStep wTrue inpNone 0 .Output st128) = some [194, 128] := rfl
      rw [h3] at h
      exact Option.some_inj.mp h
    cases h2

/-- C2 amended: an Output dispatch appends the UTF-8 encoding of the
character whose code point is the cell value to the sink — the single
byte b when b < 128 and the two bytes 192 + b / 64, 128 + b % 64 when
b ≥ 128 — and the step yields the IOError result exactly when the
sink's write fails. -/
theorem claim2_output_utf8 (w : Nat → Bool) (inp : Nat → ReadResult) (rf : Nat)
    (s : ExecState) :
    (w s.writes = true →
      stepOut (execStep w inp rf .Output s) =
        some (s.output ++ utf8OfByte (s.memory s.memory_position))) ∧
    (execStep w inp rf .Output s = some (.error ()) ↔ w s.writes = false) ∧
    (∀ b, b < 128 → utf8OfByte b = [b]) ∧
    (∀ b, 128 ≤ b → utf8OfByte b = [192 + b / 64, 128 + b % 64]) := by
  refine ⟨?_, ⟨?_, ?_⟩, ?_, ?_⟩
  · intro hw
    simp [execStep, hw, stepOut]
  · intro h
    by_cases hw : w s.writes
    · simp [execStep, hw] at h
    · simpa using hw
  · intro hw
    simp [execStep, hw]
  · intro b hb
    simp [utf8OfByte, hb]
  · intro b hb
    simp [utf8OfByte, Nat.not_lt.mpr hb]

/-- C2 witness: outputting a cell holding 65 with a working sink appends
exactly the single byte 65, and outputting with a failing sink yields
the error result. -/
theorem claim2_output_utf8_witness :
    stepOut (execStep wTrue inpNone 0 .Output { initState with memory := fun _ => 65 }) =
      some [65] ∧
    execStep (fun _ => false) inpNone 0 .Output initState = some (.error ()) := by
  have h1 := (claim2_output_utf8 wTrue inpNone 0
    { initState with memory := fun _ => 65 }).1 (by decide)
  have h2 := (claim2_output_utf8 (fun _ => false) inpNone 0 initState).2.1.2 (by decide)
  constructor
  · rw [h1]; rfl
  · exact h2

/-- C5: a JumpToLeft sets the program counter to its target exactly when
the current cell is zero, a JumpToRight exactly when it is non-zero, and
in each instruction's other case the program counter advances by one; a
taken jump sets the counter to the target with no further increment. -/
theorem claim5_jump_dispatch (w : Nat → Bool) (inp : Nat → ReadResult) (rf t : Nat)
    (s : ExecState) :
    (s.memory s.memory_position = 0 →
      stepPC (execStep w inp rf (.JumpToLeft t) s) = some t ∧
      stepPC (execStep w inp rf (.JumpToRight t) s) = some (s.next_instruction + 1)) ∧
    (s.memory s.memory_position ≠ 0 →
      stepPC (execStep w inp rf (.JumpToRight t) s) = some t ∧
      stepPC (execStep w inp rf (.JumpToLeft t) s) = some (s.next_instruction + 1)) := by
  constructor <;> intro h <;> constructor <;> simp [execStep, stepPC, h]

/-- C5 witness: on a zero cell JumpToLeft 5 jumps to 5 and JumpToRight 7
falls through; on a cell holding 255 JumpToRight 9 jumps to 9 and
JumpToLeft 3 falls through. -/
theorem claim5_jump_dispatch_witness :
    stepPC (execStep wTrue inpNone 0 (.JumpToLeft 5) initState) = some 5 ∧
    stepPC (execStep wTrue inpNone 0 (.JumpToRight 7) initState) =
      some (initState.next_instruction + 1) ∧
    stepPC (execStep wTrue inpNone 0 (.JumpToRight 9) st255) = some 9 ∧
    stepPC (execStep wTrue inpNone 0 (.JumpToLeft 3) st255) =
      some (st255.next_instruction + 1) :=
  ⟨((claim5_jump_dispatch wTrue inpNone 0 5 initState).1 (by decide)).1,
    ((claim5_jump_dispatch wTrue inpNone 0 7 initState).1 (by decide)).2,
    ((claim5_jump_dispatch wTrue inpNone 0 9 st255).2 (by decide)).1,
    ((claim5_jump_dispatch wTrue inpNone 0 3 st255).2 (by decide)).2⟩

/-- C6: a run whose budget is exhausted stops with
MaximumIterationsReached; a run whose program counter is at or past the
end of the instructions while budget remains stops with
AllInstructionsFinished; and every non-error outcome of execute is one
of these two termination conditions. -/
theorem claim6_termination_conditions (instrs : List Instruction) (w : Nat → Bool)
    (inp : Nat → ReadResult) (rf : Nat) :
    (∀ s, execGo instrs w inp rf 0 s = some (.ok (.MaximumIterationsReached, s))) ∧
    (∀ s fuel, instrs.length ≤ s.next_instruction →
      execGo instrs w inp rf (fuel + 1) s = some (.ok (.AllInstructionsFinished, s))) ∧
    (∀ maxIter t s2, execute_brainfuck instrs w inp rf maxIter = some (.ok (t, s2)) →
      t = .AllInstructionsFinished ∨ t = .MaximumIterationsReached) := by
  refine ⟨fun s => rfl, ?_, ?_⟩
  · intro s fuel h
    simp only [execGo]
    rw [dif_neg (Nat.not_lt.mpr h)]
  · intro maxIter t s2 h
    cases t
    · exact Or.inr rfl
    · exact Or.inl rfl

/-- C6 witness: with budget 0 a nonempty program stops with
MaximumIterationsReached, and the empty program with budget 1 stops with
AllInstructionsFinished. -/
theorem claim6_termination_conditions_witness :
    execute_brainfuck [Instruction.Increment] wTrue inpNone 0 0 =
      some (.ok (.MaximumIterationsReached, initState)) ∧
    execGo [] wTrue inpNone 0 1 initState =
      some (.ok (.AllInstructionsFinished, initState)) :=
  ⟨(claim6_termination_conditions [Instruction.Increment] wTrue inpNone 0).1 initState,
    (claim6_termination_conditions [] wTrue inpNone 0).2.1 initState 0 (by decide)⟩

/-- C9: the Input busy-wait retries after a zero-byte read, stops at the
first read yielding at least one byte and stores that byte at the
current tape position as a successful step, and propagates a failing
read at once as the error result. -/
theorem claim9_input_busy_wait (inp : Nat → ReadResult) (w : Nat → Bool)
    (rf fuel i n b : Nat) (s : ExecState) :
    (inp i = .ok 0 b → readLoop inp (fuel + 1) i = readLoop inp fuel (i + 1)) ∧
    (inp i = .ok n b → 1 ≤ n → readLoop inp (fuel + 1) i = some (.ok (b, i + 1))) ∧
    (inp i = .err → readLoop inp (fuel + 1) i = some (.error ())) ∧
    (readLoop inp rf s.reads = some (.ok (b, i)) →
      stepCell s.memory_position (execStep w inp rf .Input s) = some b ∧
      execStep w inp rf .Input s ≠ some (.error ())) ∧
    (readLoop inp rf s.reads = some (.error ()) →
      execStep w inp rf .Input s = some (.error ())) := by
  refine ⟨?_, ?_, ?_, ?_, ?_⟩
  · intro h
    simp [readLoop, h]
  · intro h hn
    simp [readLoop, h, hn]
  · intro h
    simp [readLoop, h]
  · intro h
    constructor
    · simp [execStep, h, stepCell, updMem]
    · simp [execStep, h]
  · intro h
    simp [execStep, h]

/-- C9 witness: on a source yielding a zero-byte read, then byte 65,
then a hard failure, the loop retries past the zero-byte read, returns
byte 65 from the productive read, propagates the failure, and the Input
step stores 65 at the current tape position. -/
theorem claim9_input_busy_wait_witness :
    readLoop inpSeq 2 0 = readLoop inpSeq 1 1 ∧
    readLoop inpSeq 1 1 = some (.ok (65, 2)) ∧
    readLoop inpSeq 1 2 = some (.error ()) ∧
    stepCell initState.memory_position (execStep wTrue inpSeq 2 .Input initState) =
      some 65 :=
  ⟨(claim9_input_busy_wait inpSeq wTrue 0 1 0 0 0 initState).1 rfl,
    (claim9_input_busy_wait inpSeq wTrue 0 0 1 1 65 initState).2.1 rfl (by decide),
    (claim9_input_busy_wait inpSeq wTrue 0 0 2 0 0 initState).2.2.1 rfl,
    ((claim9_input_busy_wait inpSeq wTrue 2 0 2 0 65 initState).2.2.2.1 rfl).1⟩

/-- A successful dispatch never changes the ghost dispatch counter. -/
lemma execStep_steps {w : Nat → Bool} {inp : Nat → ReadResult} {rf : Nat}
    {ins : Instruction} {s s2 : ExecState}
    (h : execStep w inp rf ins s = some (.ok s2)) : s2.steps = s.steps := by
  cases ins <;> simp only [execStep] at h
  all_goals try split at h
  all_goals first
    | (injection h with h2; injection h2 with h3; subst h3; rfl)
    | (injection h with h2; injection h2)
    | injection h

/-- A run that ends with AllInstructionsFinished performed strictly
fewer dispatches than its fuel. -/
lemma execGo_finished_steps {instrs : List Instruction} {w : Nat → Bool}
    {inp : Nat → ReadResult} {rf : Nat} :
    ∀ (fuel : Nat) (s s2 : ExecState),
      execGo instrs w inp rf fuel s = some (.ok (.AllInstructionsFinished, s2)) →
      s2.steps < s.steps + fuel
  | 0, s, s2, h => by
    simp only [execGo] at h
    simp at h
  | fuel + 1, s, s2, h => by
    simp only [execGo] at h
    split at h
    case isTrue hlt =>
      split at h
      case h_1 => cases h
      case h_2 => cases h
      case h_3 s3 heq =>
        have h5 := execGo_finished_steps fuel s3 s2 h
        have h6 : s3.steps = s.steps + 1 := by
          have h7 := execStep_steps heq
          simpa using h7
        omega
    case isFalse hge =>
      injection h with h2
      injection h2 with h3
      injection h3 with h4 h5
      subst h5
      omega

/-- C10: the end-of-program check runs only inside a budgeted round, so
execute reports AllInstructionsFinished only when maximum_iterations
strictly exceeds the dispatches performed (counted by the ghost steps
field, starting from 0); with maximum_iterations = 0 every instruction
sequence, the empty one included, reports MaximumIterationsReached. -/
theorem claim10_budgeted_end_check (instrs : List Instruction) (w : Nat → Bool)
    (inp : Nat → ReadResult) (rf : Nat) :
    (∀ maxIter s2, execute_brainfuck instrs w inp rf maxIter =
        some (.ok (.AllInstructionsFinished, s2)) → s2.steps < maxIter) ∧
    execute_brainfuck instrs w inp rf 0 =
      some (.ok (.MaximumIterationsReached, initState)) := by
  constructor
  · intro maxIter s2 h
    have h2 := execGo_finished_steps maxIter initState s2 h
    simpa [initState] using h2
  · rfl

/-- C10 witness: the empty program with budget 1 finishes having used 0
dispatches, 0 < 1; and a nonempty program with budget 0 reports
MaximumIterationsReached. -/
theorem claim10_budgeted_end_check_witness :
    initState.steps < 1 ∧
    execute_brainfuck [Instruction.MoveRight] wTrue inpNone 0 0 =
      some (.ok (.MaximumIterationsReached, initState)) :=
  ⟨(claim10_budgeted_end_check [] wTrue inpNone 0).1 1 initState rfl,
    (claim10_budgeted_end_check [Instruction.MoveRight] wTrue inpNone 0).2⟩

end Mindjuice
